import Mathlib

/-!
Verification of the bbqueue bipartite ring-buffer core (`src/core/src/bbqueue.rs`).

The ring state is embedded as a pure record: cursors are natural numbers, the
backing byte region is a function from indices to byte values, and the two
`AtomicWaker` slots are represented by wake counters (a `wake()` call bumps a
counter).  Every operation of the crate is translated into a pure function on
this record; each definition cites the Rust function it mirrors.  Sequential
executions of the producer/consumer operations are modelled by an explicit
operation list interpreter (`stepOp` / `exec`).
-/

set_option autoImplicit false

/-- Error kinds of the crate (`Error` enum in the crate root). -/
inductive Error where
  | GrantInProgress
  | InsufficientSize
  | AlreadySplit
  deriving DecidableEq

/-- A write grant: a contiguous reservation of `len` bytes starting at index
`start` of the backing region (the Rust `GrantW` stores the slice itself). -/
structure GrantW where
  start : ℕ
  len : ℕ
  deriving DecidableEq

/-- A read grant over `len` readable bytes starting at index `start`. -/
structure GrantR where
  start : ℕ
  len : ℕ
  deriving DecidableEq

/-- A split read grant: primary segment of `len1` bytes at `start1`, secondary
segment of `len2` bytes at index 0 (mirrors `SplitGrantR`). -/
structure SplitGrantR where
  start1 : ℕ
  len1 : ℕ
  len2 : ℕ
  deriving DecidableEq

/-- State of one `BBQueue` (bbqueue.rs lines 28-73): capacity, backing region,
the four cursors, the in-progress flags, the split flag, and the two waker
slots (modelled as counters of delivered wakes). -/
structure BBState where
  cap : ℕ
  buf : ℕ → ℕ
  write : ℕ
  read : ℕ
  last : ℕ
  reserve : ℕ
  rip : Bool
  wip : Bool
  split : Bool
  rwakes : ℕ
  wwakes : ℕ

/-- Overwrite the region `[i, i + data.length)` of the byte store `f` with
`data`; models the caller filling a grant slice. -/
def setSlice (f : ℕ → ℕ) (i : ℕ) (data : List ℕ) : ℕ → ℕ :=
  fun n => if i ≤ n ∧ n < i + data.length then data.getD (n - i) 0 else f n

/-- Bytes of the region `[i, j)` of the byte store `f`, as a list. -/
def bufSlice (f : ℕ → ℕ) (i j : ℕ) : List ℕ :=
  (List.range (j - i)).map fun k => f (i + k)

/-- State of a queue as produced by `BBQueue::new` / `new_static`
(bbqueue.rs lines 267-311): all cursors 0, flags clear. -/
def newState (cap : ℕ) (f : ℕ → ℕ) : BBState :=
  { cap := cap, buf := f, write := 0, read := 0, last := 0, reserve := 0,
    rip := false, wip := false, split := false, rwakes := 0, wwakes := 0 }

/-- Mirrors `BBQueue::try_split` (bbqueue.rs lines 112-137).  The zeroing step
is `(*mu_ptr).as_mut_ptr().write_bytes(0u8, 1)`: it writes the zero byte to
`count = 1` element of type `u8`, i.e. it clears exactly the first byte of the
backing region. -/
def BBQueue.try_split (s : BBState) : Except Error BBState :=
  if s.split then Except.error Error.AlreadySplit
  else Except.ok { s with split := true, buf := fun n => if n < 1 then 0 else s.buf n }

/-- A freshly split queue with backing contents `f`: the state every sequential
execution in this development starts from. -/
def mkState (cap : ℕ) (f : ℕ → ℕ) : BBState :=
  { cap := cap, buf := f, write := 0, read := 0, last := 0, reserve := 0,
    rip := false, wip := false, split := true, rwakes := 0, wwakes := 0 }

/-- Mirrors `Producer::grant_exact` (bbqueue.rs lines 458-517).  The result
pair holds the returned value and the post-call state; on failure the code
stores `write_in_progress` back to `false`, so the failed call's net state
change cancels out. -/
def Producer.grant_exact (s : BBState) (sz : ℕ) : Except Error GrantW × BBState :=
  if s.wip then (Except.error Error.GrantInProgress, s)
  else
    let write := s.write
    let read := s.read
    let max := s.cap
    let already_inverted := write < read
    if already_inverted then
      if write + sz < read then
        (Except.ok ⟨write, sz⟩, { s with wip := true, reserve := write + sz })
      else
        (Except.error Error.InsufficientSize, s)
    else
      if write + sz ≤ max then
        (Except.ok ⟨write, sz⟩, { s with wip := true, reserve := write + sz })
      else
        if sz < read then
          (Except.ok ⟨0, sz⟩, { s with wip := true, reserve := 0 + sz })
        else
          (Except.error Error.InsufficientSize, s)

/-- Mirrors `Producer::grant_max_remaining` (bbqueue.rs lines 557-621). -/
def Producer.grant_max_remaining (s : BBState) (sz : ℕ) : Except Error GrantW × BBState :=
  if s.wip then (Except.error Error.GrantInProgress, s)
  else
    let write := s.write
    let read := s.read
    let max := s.cap
    if write < read then
      let remain := read - write - 1
      if remain ≠ 0 then
        let sz1 := min remain sz
        (Except.ok ⟨write, sz1⟩, { s with wip := true, reserve := write + sz1 })
      else
        (Except.error Error.InsufficientSize, s)
    else
      if write ≠ max then
        let sz1 := min (max - write) sz
        (Except.ok ⟨write, sz1⟩, { s with wip := true, reserve := write + sz1 })
      else
        if 1 < read then
          let sz1 := min (read - 1) sz
          (Except.ok ⟨0, sz1⟩, { s with wip := true, reserve := 0 + sz1 })
        else
          (Except.error Error.InsufficientSize, s)

/-- Mirrors `GrantW::commit_inner` (bbqueue.rs lines 968-1019).  `used` is
saturated to the grant length; the unused tail is subtracted from `reserve`;
then `last` is conditionally updated and `write` is published.  Note that the
source sets `max` to the grant length (`let max = len;`, line 988), not to the
queue capacity, and that both `last` branches use this `max`. -/
def GrantW.commit_inner (g : GrantW) (used : ℕ) (s : BBState) : BBState :=
  if s.wip = false then s
  else
    let len := g.len
    let used1 := min len used
    let max := len
    let new_write := s.reserve - (len - used1)
    let last1 :=
      if new_write < s.write ∧ s.write ≠ max then s.write
      else if s.last < new_write then max
      else s.last
    { s with reserve := new_write, last := last1, write := new_write,
             wip := false, rwakes := s.rwakes + 1 }

/-- Mirrors `Consumer::read` (bbqueue.rs lines 693-742).  The inversion
rollover (`read == last && write < read` implies `read := 0`) is performed
before the size check, so it persists even when the call then fails with
`InsufficientSize`. -/
def Consumer.read (s : BBState) : Except Error GrantR × BBState :=
  if s.rip then (Except.error Error.GrantInProgress, s)
  else
    let write := s.write
    let last := s.last
    let read0 := s.read
    let read1 := if read0 = last ∧ write < read0 then 0 else read0
    let s1 : BBState := { s with read := read1 }
    let sz := (if write < read1 then last else write) - read1
    if sz = 0 then (Except.error Error.InsufficientSize, s1)
    else (Except.ok ⟨read1, sz⟩, { s1 with rip := true })

/-- Mirrors `Consumer::split_read` (bbqueue.rs lines 746-798): as `read`, but
returning both the contiguous region at `read` and the wrapped region at 0. -/
def Consumer.split_read (s : BBState) : Except Error SplitGrantR × BBState :=
  if s.rip then (Except.error Error.GrantInProgress, s)
  else
    let write := s.write
    let last := s.last
    let read0 := s.read
    let read1 := if read0 = last ∧ write < read0 then 0 else read0
    let s1 : BBState := { s with read := read1 }
    let sz1 := if write < read1 then last - read1 else write - read1
    let sz2 := if write < read1 then write else 0
    if sz1 = 0 then (Except.error Error.InsufficientSize, s1)
    else (Except.ok ⟨read1, sz1, sz2⟩, { s1 with rip := true })

/-- Mirrors `GrantR::release_inner` (bbqueue.rs lines 1110-1129): advance
`read`, clear the flag, wake `write_waker`. -/
def GrantR.release_inner (used : ℕ) (s : BBState) : BBState :=
  if s.rip = false then s
  else { s with read := s.read + used, rip := false, wwakes := s.wwakes + 1 }

/-- Mirrors `GrantR::release` (bbqueue.rs lines 1039-1045): saturate `used` to
the grant length, then release. -/
def GrantR.release (g : GrantR) (used : ℕ) (s : BBState) : BBState :=
  GrantR.release_inner (min g.len used) s

/-- Combined length of both segments of a split read grant
(`SplitGrantR::combined_len`, bbqueue.rs lines 1233-1235). -/
def SplitGrantR.combined_len (g : SplitGrantR) : ℕ :=
  g.len1 + g.len2

/-- Mirrors `SplitGrantR::release_inner` (bbqueue.rs lines 1202-1225).  A
release within the first segment adds to `read`; a release crossing into the
second segment stores `used - buf1.len()`.  Note the source clears
`read_in_progress` but, unlike `GrantR::release_inner`, never calls
`write_waker.wake()`. -/
def SplitGrantR.release_inner (g : SplitGrantR) (used : ℕ) (s : BBState) : BBState :=
  if s.rip = false then s
  else if used ≤ g.len1 then { s with read := s.read + used, rip := false }
  else { s with read := used - g.len1, rip := false }

/-- Mirrors `SplitGrantR::release` (bbqueue.rs lines 1149-1155): saturate
`used` to the combined length, then release. -/
def SplitGrantR.release (g : SplitGrantR) (used : ℕ) (s : BBState) : BBState :=
  SplitGrantR.release_inner g (min g.combined_len used) s

/-- One sequential producer/consumer operation: a write grant that is filled
with `data` and committed with `commit(used)`, its `grant_max_remaining`
variant, or a read (split read) grant released with `release(k)`. -/
inductive Op where
  | write (data : List ℕ) (used : ℕ)
  | writeMax (data : List ℕ) (used : ℕ)
  | readRel (k : ℕ)
  | splitReadRel (k : ℕ)

/-- Run one operation.  On success, returns the bytes this operation committed,
the bytes it released (for reads: the released prefix of the bytes the grant
returned), and the post state.  Returns `none` when the underlying queue call
fails. -/
def stepOp (s : BBState) : Op → Option (List ℕ × List ℕ × BBState)
  | Op.write data used =>
    match Producer.grant_exact s data.length with
    | (Except.error _, _) => none
    | (Except.ok g, s1) =>
        some (data.take (min g.len used), [],
          GrantW.commit_inner g used { s1 with buf := setSlice s1.buf g.start data })
  | Op.writeMax data used =>
    match Producer.grant_max_remaining s data.length with
    | (Except.error _, _) => none
    | (Except.ok g, s1) =>
        some (data.take (min g.len used), [],
          GrantW.commit_inner g used { s1 with buf := setSlice s1.buf g.start (data.take g.len) })
  | Op.readRel k =>
    match Consumer.read s with
    | (Except.error _, _) => none
    | (Except.ok g, s1) =>
        let bs := bufSlice s1.buf g.start (g.start + g.len)
        some ([], bs.take (min g.len k), GrantR.release g k s1)
  | Op.splitReadRel k =>
    match Consumer.split_read s with
    | (Except.error _, _) => none
    | (Except.ok g, s1) =>
        let bs := bufSlice s1.buf g.start1 (g.start1 + g.len1) ++ bufSlice s1.buf 0 g.len2
        some ([], bs.take (min g.combined_len k), SplitGrantR.release g k s1)

/-- Run a list of operations, accumulating the stream of committed bytes and
the stream of released (consumed) bytes. -/
def exec : BBState → List Op → Option (BBState × List ℕ × List ℕ)
  | s, [] => some (s, [], [])
  | s, op :: ops =>
    match stepOp s op with
    | none => none
    | some (c, r, s1) =>
      match exec s1 ops with
      | none => none
      | some (s2, cs, rs) => some (s2, c ++ cs, r ++ rs)

/-- Cursor well-formedness at a quiescent point: cursors bounded by the
capacity, `reserve` equal to `write` when no write grant is outstanding, and,
in the inverted configuration, `read` at or below `last`. -/
def CursorInv (s : BBState) : Prop :=
  s.write ≤ s.cap ∧ s.read ≤ s.cap ∧ s.last ≤ s.cap ∧ s.reserve = s.write ∧
    (s.write < s.read → s.read ≤ s.last)

/-- The queue contents visible to the consumer: `[read, write)` when
uninverted, `[read, last)` followed by `[0, write)` when inverted. -/
def pending (s : BBState) : List ℕ :=
  if s.write < s.read then bufSlice s.buf s.read s.last ++ bufSlice s.buf 0 s.write
  else bufSlice s.buf s.read s.write

lemma bufSlice_length (f : ℕ → ℕ) (i j : ℕ) : (bufSlice f i j).length = j - i := by
  simp [bufSlice]

lemma bufSlice_nil (f : ℕ → ℕ) {i j : ℕ} (h : j ≤ i) : bufSlice f i j = [] := by
  simp [bufSlice, Nat.sub_eq_zero_of_le h]

lemma bufSlice_congr {f g : ℕ → ℕ} {i j : ℕ} (h : ∀ n, i ≤ n → n < j → f n = g n) :
    bufSlice f i j = bufSlice g i j := by
  unfold bufSlice
  refine List.map_congr_left fun k hk => ?_
  have hk1 : k < j - i := List.mem_range.mp hk
  exact h (i + k) (Nat.le_add_right i k) (by omega)

lemma bufSlice_append (f : ℕ → ℕ) {i j k : ℕ} (hij : i ≤ j) (hjk : j ≤ k) :
    bufSlice f i j ++ bufSlice f j k = bufSlice f i k := by
  unfold bufSlice
  rw [show k - i = (j - i) + (k - j) by omega, List.range_add, List.map_append, List.map_map]
  congr 1
  refine List.map_congr_left fun x hx => ?_
  simp only [Function.comp_apply]
  congr 1
  omega

lemma bufSlice_take (f : ℕ → ℕ) {i j : ℕ} (u : ℕ) (h : i + u ≤ j) :
    (bufSlice f i j).take u = bufSlice f i (i + u) := by
  unfold bufSlice
  rw [← List.map_take, List.take_range, show min u (j - i) = (i + u) - i by omega]

lemma setSlice_before {f : ℕ → ℕ} {i : ℕ} {data : List ℕ} {n : ℕ} (h : n < i) :
    setSlice f i data n = f n := by
  simp only [setSlice]
  rw [if_neg (by omega)]

lemma setSlice_beyond {f : ℕ → ℕ} {i : ℕ} {data : List ℕ} {n : ℕ} (h : i + data.length ≤ n) :
    setSlice f i data n = f n := by
  simp only [setSlice]
  rw [if_neg (by omega)]

lemma bufSlice_setSlice_before {f : ℕ → ℕ} {i : ℕ} {data : List ℕ} {a b : ℕ} (h : b ≤ i) :
    bufSlice (setSlice f i data) a b = bufSlice f a b :=
  bufSlice_congr fun n _ hn => setSlice_before (by omega)

lemma bufSlice_setSlice_beyond {f : ℕ → ℕ} {i : ℕ} {data : List ℕ} {a b : ℕ}
    (h : i + data.length ≤ a) :
    bufSlice (setSlice f i data) a b = bufSlice f a b :=
  bufSlice_congr fun n hn _ => setSlice_beyond (by omega)

lemma range_map_getD (data : List ℕ) (k : ℕ) (h : k ≤ data.length) :
    (List.range k).map (fun m => data.getD m 0) = data.take k := by
  induction data generalizing k with
  | nil =>
    have : k = 0 := by simpa using h
    subst this
    simp
  | cons a t ih =>
    cases k with
    | zero => simp
    | succ k1 =>
      rw [List.range_succ_eq_map, List.map_cons, List.map_map]
      simp only [List.getD_cons_zero, List.take_succ_cons]
      congr 1
      rw [show ((fun m => List.getD (a :: t) m 0) ∘ Nat.succ) = fun m => t.getD m 0 from rfl]
      exact ih k1 (by simpa using h)

lemma bufSlice_setSlice_data {f : ℕ → ℕ} {i : ℕ} (data : List ℕ) (k : ℕ) (h : k ≤ data.length) :
    bufSlice (setSlice f i data) i (i + k) = data.take k := by
  unfold bufSlice
  rw [Nat.add_sub_cancel_left]
  have h2 : ∀ m ∈ List.range k, setSlice f i data (i + m) = data.getD m 0 := by
    intro m hm
    have hmk : m < k := List.mem_range.mp hm
    simp only [setSlice]
    rw [if_pos (by omega)]
    congr 1
    omega
  rw [List.map_congr_left h2]
  exact range_map_getD data k h

lemma mkState_inv (cap : ℕ) (f : ℕ → ℕ) : CursorInv (mkState cap f) := by
  simp [CursorInv, mkState]

lemma pending_mkState (cap : ℕ) (f : ℕ → ℕ) : pending (mkState cap f) = [] := by
  simp [pending, mkState, bufSlice]

lemma bufSlice_setSlice_data0 {f : ℕ → ℕ} (data : List ℕ) (k : ℕ) (h : k ≤ data.length) :
    bufSlice (setSlice f 0 data) 0 k = data.take k := by
  have h2 := bufSlice_setSlice_data (f := f) (i := 0) data k h
  simpa using h2

lemma commit_inner_state (g : GrantW) (used : ℕ) (s : BBState) (h : s.wip = true) :
    GrantW.commit_inner g used s =
      { s with
        reserve := s.reserve - (g.len - min g.len used),
        write := s.reserve - (g.len - min g.len used),
        last :=
          if s.reserve - (g.len - min g.len used) < s.write ∧ s.write ≠ g.len then s.write
          else if s.last < s.reserve - (g.len - min g.len used) then g.len
          else s.last,
        wip := false,
        rwakes := s.rwakes + 1 } := by
  unfold GrantW.commit_inner
  rw [if_neg (by simp [h])]


lemma stepOp_write_spec {s : BBState} {data : List ℕ} {used : ℕ} {c r : List ℕ} {t : BBState}
    (hI : CursorInv s) (h : stepOp s (Op.write data used) = some (c, r, t)) :
    CursorInv t ∧ r ++ pending t = pending s ++ c ∧ t.cap = s.cap := by
  obtain ⟨hwc, hrc, hlc, hres, hil⟩ := hI
  have hu1 : min data.length used ≤ data.length := Nat.min_le_left _ _
  by_cases hwip : s.wip = true
  · simp [stepOp, Producer.grant_exact, hwip] at h
  · by_cases hinv : s.write < s.read
    · have hrl : s.read ≤ s.last := hil hinv
      by_cases hfit : s.write + data.length < s.read
      · -- inverted, grant placed at `write`
        simp only [stepOp, Producer.grant_exact, if_neg hwip, if_pos hinv, if_pos hfit,
          Option.some.injEq, Prod.mk.injEq] at h
        obtain ⟨hc, hrr, ht⟩ := h
        subst hc hrr ht
        rw [commit_inner_state _ _ _ rfl]
        dsimp only
        have hnw : s.write + data.length - (data.length - min data.length used)
            = s.write + min data.length used := by omega
        rw [hnw]
        refine ⟨?_, ?_, rfl⟩
        · unfold CursorInv
          dsimp only
          exact ⟨by omega, by omega, by split_ifs <;> omega, rfl,
            fun hx => by split_ifs <;> omega⟩
        · rw [if_neg (by omega : ¬(s.write + min data.length used < s.write ∧
            s.write ≠ data.length)),
            if_neg (by omega : ¬(s.last < s.write + min data.length used))]
          simp only [List.nil_append]
          unfold pending
          dsimp only
          rw [if_pos (by omega : s.write + min data.length used < s.read), if_pos hinv]
          rw [bufSlice_setSlice_beyond (by omega : s.write + data.length ≤ s.read)]
          rw [← bufSlice_append (setSlice s.buf s.write data) (Nat.zero_le s.write)
            (Nat.le_add_right s.write (min data.length used))]
          rw [bufSlice_setSlice_before (le_refl s.write)]
          rw [bufSlice_setSlice_data data (min data.length used) hu1]
          simp [List.append_assoc]
      · -- inverted, no room: InsufficientSize
        simp [stepOp, Producer.grant_exact, if_neg hwip, if_pos hinv, if_neg hfit] at h
    · by_cases hfit : s.write + data.length ≤ s.cap
      · -- uninverted, grant fits at `write`
        simp only [stepOp, Producer.grant_exact, if_neg hwip, if_neg hinv, if_pos hfit,
          Option.some.injEq, Prod.mk.injEq] at h
        obtain ⟨hc, hrr, ht⟩ := h
        subst hc hrr ht
        rw [commit_inner_state _ _ _ rfl]
        dsimp only
        have hnw : s.write + data.length - (data.length - min data.length used)
            = s.write + min data.length used := by omega
        rw [hnw]
        refine ⟨?_, ?_, rfl⟩
        · unfold CursorInv
          dsimp only
          exact ⟨by omega, by omega, by split_ifs <;> omega, rfl,
            fun hx => absurd hx (by omega)⟩
        · simp only [List.nil_append]
          unfold pending
          dsimp only
          rw [if_neg (by omega : ¬(s.write + min data.length used < s.read)), if_neg hinv]
          rw [← bufSlice_append (setSlice s.buf s.write data) (by omega : s.read ≤ s.write)
            (Nat.le_add_right s.write (min data.length used))]
          rw [bufSlice_setSlice_before (le_refl s.write)]
          rw [bufSlice_setSlice_data data (min data.length used) hu1]
      · by_cases hwrap : data.length < s.read
        · -- uninverted, wraps: grant placed at 0
          simp only [stepOp, Producer.grant_exact, if_neg hwip, if_neg hinv, if_neg hfit,
            if_pos hwrap, Nat.zero_add, Option.some.injEq, Prod.mk.injEq] at h
          obtain ⟨hc, hrr, ht⟩ := h
          subst hc hrr ht
          rw [commit_inner_state _ _ _ rfl]
          dsimp only
          have hnw : data.length - (data.length - min data.length used)
              = min data.length used := by omega
          rw [hnw]
          rw [if_pos (by omega : min data.length used < s.write ∧ s.write ≠ data.length)]
          refine ⟨?_, ?_, rfl⟩
          · unfold CursorInv
            dsimp only
            exact ⟨by omega, by omega, by omega, rfl, fun hx => by omega⟩
          · simp only [List.nil_append]
            unfold pending
            dsimp only
            rw [if_pos (by omega : min data.length used < s.read), if_neg hinv]
            rw [bufSlice_setSlice_beyond (by omega : 0 + data.length ≤ s.read)]
            rw [bufSlice_setSlice_data0 data (min data.length used) hu1]
        · -- uninverted, no room: InsufficientSize
          simp [stepOp, Producer.grant_exact, if_neg hwip, if_neg hinv, if_neg hfit,
            if_neg hwrap] at h

lemma stepOp_writeMax_spec {s : BBState} {data : List ℕ} {used : ℕ} {c r : List ℕ} {t : BBState}
    (hI : CursorInv s) (h : stepOp s (Op.writeMax data used) = some (c, r, t)) :
    CursorInv t ∧ r ++ pending t = pending s ++ c ∧ t.cap = s.cap := by
  obtain ⟨hwc, hrc, hlc, hres, hil⟩ := hI
  by_cases hwip : s.wip = true
  · simp [stepOp, Producer.grant_max_remaining, hwip] at h
  · by_cases hinv : s.write < s.read
    · have hrl : s.read ≤ s.last := hil hinv
      by_cases hrem : s.read - s.write - 1 = 0
      · simp [stepOp, Producer.grant_max_remaining, if_neg hwip, if_pos hinv, hrem] at h
      · -- inverted, grant placed at `write`, size min (read - write - 1) sz
        simp only [stepOp, Producer.grant_max_remaining, if_neg hwip, if_pos hinv,
          if_pos (show s.read - s.write - 1 ≠ 0 from hrem),
          Option.some.injEq, Prod.mk.injEq] at h
        obtain ⟨hc, hrr, ht⟩ := h
        subst hc hrr ht
        rw [commit_inner_state _ _ _ rfl]
        dsimp only
        have hnw : s.write + min (s.read - s.write - 1) data.length -
            (min (s.read - s.write - 1) data.length -
              min (min (s.read - s.write - 1) data.length) used)
            = s.write + min (min (s.read - s.write - 1) data.length) used := by omega
        rw [hnw]
        refine ⟨?_, ?_, rfl⟩
        · unfold CursorInv
          dsimp only
          exact ⟨by omega, by omega, by split_ifs <;> omega, rfl,
            fun hx => by split_ifs <;> omega⟩
        · rw [if_neg (by omega :
            ¬(s.write + min (min (s.read - s.write - 1) data.length) used < s.write ∧
              s.write ≠ min (s.read - s.write - 1) data.length)),
            if_neg (by omega :
            ¬(s.last < s.write + min (min (s.read - s.write - 1) data.length) used))]
          simp only [List.nil_append]
          unfold pending
          dsimp only
          rw [if_pos (by omega :
              s.write + min (min (s.read - s.write - 1) data.length) used < s.read),
            if_pos hinv]
          rw [bufSlice_setSlice_beyond (show s.write +
              (data.take (min (s.read - s.write - 1) data.length)).length ≤ s.read by
            rw [List.length_take]; omega)]
          rw [← bufSlice_append (setSlice s.buf s.write
              (data.take (min (s.read - s.write - 1) data.length))) (Nat.zero_le s.write)
            (Nat.le_add_right s.write (min (min (s.read - s.write - 1) data.length) used))]
          rw [bufSlice_setSlice_before (le_refl s.write)]
          rw [bufSlice_setSlice_data (data.take (min (s.read - s.write - 1) data.length))
            (min (min (s.read - s.write - 1) data.length) used)
            (by rw [List.length_take]; omega)]
          rw [List.take_take, show min (min (min (s.read - s.write - 1) data.length) used)
            (min (s.read - s.write - 1) data.length)
            = min (min (s.read - s.write - 1) data.length) used by omega]
          simp [List.append_assoc]
    · by_cases hne : s.write = s.cap
      · by_cases hr1 : 1 < s.read
        · -- uninverted, write == cap: grant placed at 0, size min (read - 1) sz
          simp only [stepOp, Producer.grant_max_remaining, if_neg hwip, if_neg hinv,
            if_neg (show ¬s.write ≠ s.cap by omega), if_pos hr1, Nat.zero_add,
            Option.some.injEq, Prod.mk.injEq] at h
          obtain ⟨hc, hrr, ht⟩ := h
          subst hc hrr ht
          rw [commit_inner_state _ _ _ rfl]
          dsimp only
          have hnw : min (s.read - 1) data.length -
              (min (s.read - 1) data.length - min (min (s.read - 1) data.length) used)
              = min (min (s.read - 1) data.length) used := by omega
          rw [hnw]
          rw [if_pos (by omega : min (min (s.read - 1) data.length) used < s.write ∧
            s.write ≠ min (s.read - 1) data.length)]
          refine ⟨?_, ?_, rfl⟩
          · unfold CursorInv
            dsimp only
            exact ⟨by omega, by omega, by omega, rfl, fun hx => by omega⟩
          · simp only [List.nil_append]
            unfold pending
            dsimp only
            rw [if_pos (by omega : min (min (s.read - 1) data.length) used < s.read),
              if_neg hinv]
            rw [bufSlice_setSlice_beyond (show 0 +
                (data.take (min (s.read - 1) data.length)).length ≤ s.read by
              rw [List.length_take]; omega)]
            rw [bufSlice_setSlice_data0 (data.take (min (s.read - 1) data.length))
              (min (min (s.read - 1) data.length) used) (by rw [List.length_take]; omega)]
            rw [List.take_take, show min (min (min (s.read - 1) data.length) used)
              (min (s.read - 1) data.length)
              = min (min (s.read - 1) data.length) used by omega]
        · simp [stepOp, Producer.grant_max_remaining, if_neg hwip, if_neg hinv,
            if_neg (show ¬s.write ≠ s.cap by omega), hr1] at h
      · -- uninverted, room at the end: grant at `write`, size min (cap - write) sz
        simp only [stepOp, Producer.grant_max_remaining, if_neg hwip, if_neg hinv,
          if_pos hne, Option.some.injEq, Prod.mk.injEq] at h
        obtain ⟨hc, hrr, ht⟩ := h
        subst hc hrr ht
        rw [commit_inner_state _ _ _ rfl]
        dsimp only
        have hnw : s.write + min (s.cap - s.write) data.length -
            (min (s.cap - s.write) data.length -
              min (min (s.cap - s.write) data.length) used)
            = s.write + min (min (s.cap - s.write) data.length) used := by omega
        rw [hnw]
        refine ⟨?_, ?_, rfl⟩
        · unfold CursorInv
          dsimp only
          exact ⟨by omega, by omega, by split_ifs <;> omega, rfl,
            fun hx => absurd hx (by omega)⟩
        · simp only [List.nil_append]
          unfold pending
          dsimp only
          rw [if_neg (by omega :
              ¬(s.write + min (min (s.cap - s.write) data.length) used < s.read)),
            if_neg hinv]
          rw [← bufSlice_append (setSlice s.buf s.write
              (data.take (min (s.cap - s.write) data.length))) (by omega : s.read ≤ s.write)
            (Nat.le_add_right s.write (min (min (s.cap - s.write) data.length) used))]
          rw [bufSlice_setSlice_before (le_refl s.write)]
          rw [bufSlice_setSlice_data (data.take (min (s.cap - s.write) data.length))
            (min (min (s.cap - s.write) data.length) used) (by rw [List.length_take]; omega)]
          rw [List.take_take, show min (min (min (s.cap - s.write) data.length) used)
            (min (s.cap - s.write) data.length)
            = min (min (s.cap - s.write) data.length) used by omega]

lemma release_inner_state (used : ℕ) (s : BBState) (h : s.rip = true) :
    GrantR.release_inner used s =
      { s with read := s.read + used, rip := false, wwakes := s.wwakes + 1 } := by
  unfold GrantR.release_inner
  rw [if_neg (by simp [h])]

lemma split_release_inner_state (g : SplitGrantR) (used : ℕ) (s : BBState) (h : s.rip = true) :
    SplitGrantR.release_inner g used s =
      if used ≤ g.len1 then { s with read := s.read + used, rip := false }
      else { s with read := used - g.len1, rip := false } := by
  unfold SplitGrantR.release_inner
  rw [if_neg (by simp [h])]

lemma stepOp_read_spec {s : BBState} {k : ℕ} {c r : List ℕ} {t : BBState}
    (hI : CursorInv s) (h : stepOp s (Op.readRel k) = some (c, r, t)) :
    CursorInv t ∧ r ++ pending t = pending s ++ c ∧ t.cap = s.cap := by
  obtain ⟨hwc, hrc, hlc, hres, hil⟩ := hI
  by_cases hrip : s.rip = true
  · simp [stepOp, Consumer.read, hrip] at h
  · by_cases hroll : s.read = s.last ∧ s.write < s.read
    · -- inversion rollover: read := 0, then the uninverted arm is taken
      by_cases hw0 : s.write = 0
      · have hroll2 : s.read = s.last ∧ 0 < s.read := by omega
        simp [stepOp, Consumer.read, if_neg hrip, hw0, if_pos hroll2] at h
      · simp only [stepOp, Consumer.read, if_neg hrip, if_pos hroll,
          if_neg (show ¬s.write < 0 by omega), Nat.sub_zero, if_neg hw0, Nat.zero_add,
          GrantR.release, Option.some.injEq, Prod.mk.injEq] at h
        obtain ⟨hc, hrr, ht⟩ := h
        subst hc hrr ht
        rw [release_inner_state _ _ rfl]
        dsimp only
        simp only [Nat.zero_add]
        refine ⟨?_, ?_, by trivial⟩
        · unfold CursorInv
          dsimp only
          exact ⟨by omega, by omega, by omega, hres, fun hx => absurd hx (by omega)⟩
        · unfold pending
          dsimp only
          rw [if_neg (by omega : ¬s.write < min s.write k), if_pos hroll.2]
          rw [hroll.1, bufSlice_nil s.buf (le_refl s.last)]
        
          rw [bufSlice_take s.buf (min s.write k) (by omega : 0 + min s.write k ≤ s.write)]
          simp only [Nat.zero_add, List.nil_append, List.append_nil]
          rw [bufSlice_append s.buf (Nat.zero_le _) (by omega : min s.write k ≤ s.write)]
    · by_cases hinv : s.write < s.read
      · -- inverted, no rollover: read to `last`
        have hrl : s.read ≤ s.last := hil hinv
        have hne : s.read ≠ s.last := fun he => hroll ⟨he, hinv⟩
        simp only [stepOp, Consumer.read, if_neg hrip, if_neg hroll, if_pos hinv,
          if_neg (show ¬(s.last - s.read = 0) by omega),
          GrantR.release, Option.some.injEq, Prod.mk.injEq] at h
        obtain ⟨hc, hrr, ht⟩ := h
        subst hc hrr ht
        rw [release_inner_state _ _ rfl]
        dsimp only
        rw [show s.read + (s.last - s.read) = s.last by omega]
        refine ⟨?_, ?_, rfl⟩
        · unfold CursorInv
          dsimp only
          exact ⟨by omega, by omega, by omega, hres, fun hx => by omega⟩
        · unfold pending
          dsimp only
          rw [if_pos (by omega : s.write < s.read + min (s.last - s.read) k), if_pos hinv]
          rw [bufSlice_take s.buf (min (s.last - s.read) k)
            (by omega : s.read + min (s.last - s.read) k ≤ s.last)]
          rw [← List.append_assoc]
          rw [bufSlice_append s.buf (by omega : s.read ≤ s.read + min (s.last - s.read) k)
            (by omega : s.read + min (s.last - s.read) k ≤ s.last)]
          simp
      · -- uninverted: read to `write`
        by_cases hw0 : s.write - s.read = 0
        · simp [stepOp, Consumer.read, if_neg hrip, if_neg hroll, if_neg hinv, hw0] at h
        · simp only [stepOp, Consumer.read, if_neg hrip, if_neg hroll, if_neg hinv,
            if_neg hw0, GrantR.release, Option.some.injEq, Prod.mk.injEq] at h
          obtain ⟨hc, hrr, ht⟩ := h
          subst hc hrr ht
          rw [release_inner_state _ _ rfl]
          dsimp only
          rw [show s.read + (s.write - s.read) = s.write by omega]
          refine ⟨?_, ?_, rfl⟩
          · unfold CursorInv
            dsimp only
            exact ⟨by omega, by omega, by omega, hres, fun hx => absurd hx (by omega)⟩
          · unfold pending
            dsimp only
            rw [if_neg (by omega : ¬s.write < s.read + min (s.write - s.read) k),
              if_neg hinv]
            rw [bufSlice_take s.buf (min (s.write - s.read) k)
              (by omega : s.read + min (s.write - s.read) k ≤ s.write)]
            rw [bufSlice_append s.buf (by omega : s.read ≤ s.read + min (s.write - s.read) k)
              (by omega : s.read + min (s.write - s.read) k ≤ s.write)]
            simp

lemma stepOp_splitRead_spec {s : BBState} {k : ℕ} {c r : List ℕ} {t : BBState}
    (hI : CursorInv s) (h : stepOp s (Op.splitReadRel k) = some (c, r, t)) :
    CursorInv t ∧ r ++ pending t = pending s ++ c ∧ t.cap = s.cap := by
  obtain ⟨hwc, hrc, hlc, hres, hil⟩ := hI
  by_cases hrip : s.rip = true
  · simp [stepOp, Consumer.split_read, hrip] at h
  · by_cases hroll : s.read = s.last ∧ s.write < s.read
    · -- inversion rollover: read := 0, then the uninverted arm is taken
      by_cases hw0 : s.write = 0
      · have hroll2 : s.read = s.last ∧ 0 < s.read := by omega
        simp [stepOp, Consumer.split_read, if_neg hrip, hw0, if_pos hroll2] at h
      · simp only [stepOp, Consumer.split_read, if_neg hrip, if_pos hroll,
          if_neg (show ¬s.write < 0 by omega), Nat.sub_zero, if_neg hw0, Nat.zero_add,
          Nat.add_zero, SplitGrantR.release, SplitGrantR.combined_len,
          bufSlice_nil s.buf (le_refl 0), List.append_nil,
          Option.some.injEq, Prod.mk.injEq] at h
        obtain ⟨hc, hrr, ht⟩ := h
        subst hc hrr ht
        rw [split_release_inner_state _ _ _ rfl]
        dsimp only
        rw [if_pos (by omega : min s.write k ≤ s.write)]
        dsimp only
        simp only [Nat.zero_add]
        refine ⟨?_, ?_, by trivial⟩
        · unfold CursorInv
          dsimp only
          exact ⟨by omega, by omega, by omega, hres, fun hx => absurd hx (by omega)⟩
        · unfold pending
          dsimp only
          rw [if_neg (by omega : ¬s.write < min s.write k), if_pos hroll.2]
          rw [hroll.1, bufSlice_nil s.buf (le_refl s.last)]
          rw [bufSlice_take s.buf (min s.write k) (by omega : 0 + min s.write k ≤ s.write)]
          simp only [Nat.zero_add, List.nil_append, List.append_nil]
          rw [bufSlice_append s.buf (Nat.zero_le _) (by omega : min s.write k ≤ s.write)]
    · by_cases hinv : s.write < s.read
      · -- inverted, no rollover: both segments are returned
        have hrl : s.read ≤ s.last := hil hinv
        have hne : s.read ≠ s.last := fun he => hroll ⟨he, hinv⟩
        simp only [stepOp, Consumer.split_read, if_neg hrip, if_neg hroll, if_pos hinv,
          if_neg (show ¬(s.last - s.read = 0) by omega),
          SplitGrantR.release, SplitGrantR.combined_len,
          Option.some.injEq, Prod.mk.injEq] at h
        obtain ⟨hc, hrr, ht⟩ := h
        subst hc hrr ht
        rw [split_release_inner_state _ _ _ rfl]
        dsimp only
        rw [show s.read + (s.last - s.read) = s.last by omega]
        by_cases hu : min (s.last - s.read + s.write) k ≤ s.last - s.read
        · -- release stays within the primary segment
          rw [if_pos hu]
          refine ⟨?_, ?_, rfl⟩
          · unfold CursorInv
            dsimp only
            exact ⟨by omega, by omega, by omega, hres, fun hx => by omega⟩
          · unfold pending
            dsimp only
            rw [if_pos (by omega :
                s.write < s.read + min (s.last - s.read + s.write) k), if_pos hinv]
            rw [List.take_append_eq_append_take, bufSlice_length,
              show min (s.last - s.read + s.write) k - (s.last - s.read) = 0 by omega,
              List.take_zero, List.append_nil]
            rw [bufSlice_take s.buf (min (s.last - s.read + s.write) k)
              (by omega : s.read + min (s.last - s.read + s.write) k ≤ s.last)]
            rw [← List.append_assoc]
            rw [bufSlice_append s.buf
              (by omega : s.read ≤ s.read + min (s.last - s.read + s.write) k)
              (by omega : s.read + min (s.last - s.read + s.write) k ≤ s.last)]
            simp
        · -- release crosses into the secondary segment
          rw [if_neg hu]
          refine ⟨?_, ?_, rfl⟩
          · unfold CursorInv
            dsimp only
            exact ⟨by omega, by omega, by omega, hres, fun hx => absurd hx (by omega)⟩
          · unfold pending
            dsimp only
            rw [if_neg (by omega : ¬s.write <
                min (s.last - s.read + s.write) k - (s.last - s.read)), if_pos hinv]
            rw [List.take_append_eq_append_take, bufSlice_length]
            rw [List.take_of_length_le (by rw [bufSlice_length]; omega)]
            rw [bufSlice_take s.buf (min (s.last - s.read + s.write) k - (s.last - s.read))
              (by omega : 0 + (min (s.last - s.read + s.write) k - (s.last - s.read))
                ≤ s.write)]
            simp only [Nat.zero_add]
            rw [List.append_assoc]
            rw [bufSlice_append s.buf (Nat.zero_le _)
              (by omega : min (s.last - s.read + s.write) k - (s.last - s.read) ≤ s.write)]
            simp
      · -- uninverted: only the primary segment, up to `write`
        by_cases hsz0 : s.write - s.read = 0
        · simp [stepOp, Consumer.split_read, if_neg hrip, if_neg hroll, if_neg hinv,
            hsz0] at h
        · simp only [stepOp, Consumer.split_read, if_neg hrip, if_neg hroll, if_neg hinv,
            if_neg hsz0, Nat.add_zero, SplitGrantR.release, SplitGrantR.combined_len,
            bufSlice_nil s.buf (le_refl 0), List.append_nil,
            Option.some.injEq, Prod.mk.injEq] at h
          obtain ⟨hc, hrr, ht⟩ := h
          subst hc hrr ht
          rw [split_release_inner_state _ _ _ rfl]
          dsimp only
          rw [if_pos (by omega : min (s.write - s.read) k ≤ s.write - s.read)]
          dsimp only
          rw [show s.read + (s.write - s.read) = s.write by omega]
          refine ⟨?_, ?_, rfl⟩
          · unfold CursorInv
            dsimp only
            exact ⟨by omega, by omega, by omega, hres, fun hx => absurd hx (by omega)⟩
          · unfold pending
            dsimp only
            rw [if_neg (by omega : ¬s.write < s.read + min (s.write - s.read) k),
              if_neg hinv]
            rw [bufSlice_take s.buf (min (s.write - s.read) k)
              (by omega : s.read + min (s.write - s.read) k ≤ s.write)]
            rw [bufSlice_append s.buf (by omega : s.read ≤ s.read + min (s.write - s.read) k)
              (by omega : s.read + min (s.write - s.read) k ≤ s.write)]
            simp

lemma stepOp_spec {s : BBState} {op : Op} {c r : List ℕ} {t : BBState}
    (hI : CursorInv s) (h : stepOp s op = some (c, r, t)) :
    CursorInv t ∧ r ++ pending t = pending s ++ c ∧ t.cap = s.cap := by
  cases op with
  | write data used => exact stepOp_write_spec hI h
  | writeMax data used => exact stepOp_writeMax_spec hI h
  | readRel k => exact stepOp_read_spec hI h
  | splitReadRel k => exact stepOp_splitRead_spec hI h

lemma exec_spec : ∀ (ops : List Op) (s : BBState), CursorInv s →
    ∀ {t : BBState} {cs rs : List ℕ}, exec s ops = some (t, cs, rs) →
    CursorInv t ∧ rs ++ pending t = pending s ++ cs ∧ t.cap = s.cap := by
  intro ops
  induction ops with
  | nil =>
    intro s hI t cs rs h
    simp only [exec, Option.some.injEq, Prod.mk.injEq] at h
    obtain ⟨h1, h2, h3⟩ := h
    subst h1 h2 h3
    exact ⟨hI, by simp, rfl⟩
  | cons op ops ih =>
    intro s hI t cs rs h
    simp only [exec] at h
    cases hstep : stepOp s op with
    | none => simp only [hstep] at h; exact absurd h (by simp)
    | some v =>
      obtain ⟨c, r, s1⟩ := v
      simp only [hstep] at h
      cases hrec : exec s1 ops with
      | none => simp only [hrec] at h; exact absurd h (by simp)
      | some w =>
        obtain ⟨t2, cs2, rs2⟩ := w
        simp only [hrec, Option.some.injEq, Prod.mk.injEq] at h
        obtain ⟨h1, h2, h3⟩ := h
        subst h1 h2 h3
        obtain ⟨hI1, hp1, hc1⟩ := stepOp_spec hI hstep
        obtain ⟨hI2, hp2, hc2⟩ := ih s1 hI1 hrec
        refine ⟨hI2, ?_, by rw [hc2, hc1]⟩
        rw [List.append_assoc, hp2, ← List.append_assoc, hp1, List.append_assoc]

lemma write_read_round_trip (cap : ℕ) (f : ℕ → ℕ) (data : List ℕ) (h0 : 0 < data.length)
    (hc : data.length ≤ cap) :
    (exec (mkState cap f) [Op.write data data.length, Op.readRel data.length]).map
      (fun u => u.2.2) = some data := by
  have hne : (0 : ℕ) ≠ data.length := h0.ne
  have hne2 : data.length ≠ 0 := h0.ne'
  simp [exec, stepOp, Producer.grant_exact, mkState, GrantW.commit_inner, Consumer.read,
    GrantR.release, GrantR.release_inner, hc, h0, hne, hne2,
    bufSlice_setSlice_data0 data data.length (le_refl data.length)]

/-- C1: for every sequence of successful write-grant/commit and read-grant/release
operations performed through the producer and consumer of one freshly split queue,
the stream of released (consumed) bytes followed by the bytes still pending in the
queue equals the stream of committed bytes, in order; in particular, committing
`data` (with `0 < data.length ≤ capacity`) and then reading returns exactly
`data`. -/
theorem c1_fifo_round_trip (cap : ℕ) (f : ℕ → ℕ) :
    (∀ (ops : List Op) (t : BBState) (cs rs : List ℕ),
        exec (mkState cap f) ops = some (t, cs, rs) → rs ++ pending t = cs) ∧
    (∀ data : List ℕ, 0 < data.length → data.length ≤ cap →
        (exec (mkState cap f) [Op.write data data.length, Op.readRel data.length]).map
          (fun u => u.2.2) = some data) := by
  constructor
  · intro ops t cs rs h
    have h2 := exec_spec ops (mkState cap f) (mkState_inv cap f) h
    rw [pending_mkState] at h2
    simpa using h2.2.1
  · intro data h0 hc
    exact write_read_round_trip cap f data h0 hc

/-- Witness for C1 at capacity 4 with payload `[1, 2, 3]`. -/
theorem c1_fifo_round_trip_witness :
    (0 : ℕ) < ([1, 2, 3] : List ℕ).length ∧ ([1, 2, 3] : List ℕ).length ≤ 4 ∧
    (exec (mkState 4 (fun _ => 0))
        [Op.write [1, 2, 3] ([1, 2, 3] : List ℕ).length,
         Op.readRel ([1, 2, 3] : List ℕ).length]).map
      (fun u => u.2.2) = some [1, 2, 3] :=
  ⟨by decide, by decide,
    (c1_fifo_round_trip 4 (fun _ => 0)).2 [1, 2, 3] (by decide) (by decide)⟩

/-- C2 (evaluation at the failing input): on a freshly split queue of capacity 6,
`grant_exact(3)`, fill, `commit(3)` is a commit with `new_write = 3 > last = 0`
and `w = 0`; the claim (and spec §4.3 step 6) requires the commit to store
`N = 6` into `last`, but the code stores the grant length: afterwards
`last = 3 ≠ 6`. -/
theorem c2_commit_last_uses_grant_len :
    (exec (mkState 6 (fun _ => 0)) [Op.write [1, 2, 3] 3]).map
      (fun u => (u.1.write, u.1.read, u.1.last, u.1.cap)) = some (3, 0, 3, 6) := by
  decide

/-- C3 counterexample: after `grant_exact(2)`, `commit(2)`, `read()`,
`release(1)` on a capacity-6 queue, the state is quiescent, uninverted
(`read = 1 ≤ write = 2`), past bootstrap (`write ≠ 0`), yet `last = 2 ≠ N = 6`:
invariant 2 of spec §3 (`last == N` when uninverted) fails, so the claim as
stated (invariants 1-6 at every quiescent point) is false on the code. -/
theorem c3_invariant_last_violated :
    (exec (mkState 6 (fun _ => 0)) [Op.write [1, 2] 2, Op.readRel 1]).map
      (fun u => (u.1.write, u.1.read, u.1.last, u.1.cap)) = some (2, 1, 2, 6) := by
  decide

/-- C4: placement rule of `Producer::grant_exact` with no write grant outstanding:
when inverted the grant is placed at `write` exactly if `write + sz < read`
(strict), otherwise the call fails with `InsufficientSize`; when uninverted the
grant is placed at `write` if `write + sz ≤ N`, else at 0 if `sz < read`
(strict), else the call fails with `InsufficientSize`. -/
theorem c4_grant_exact_placement (s : BBState) (sz : ℕ) (h : s.wip = false) :
    (s.write < s.read →
      (s.write + sz < s.read →
        (Producer.grant_exact s sz).1 = Except.ok ⟨s.write, sz⟩) ∧
      (¬s.write + sz < s.read →
        (Producer.grant_exact s sz).1 = Except.error Error.InsufficientSize)) ∧
    (¬s.write < s.read →
      (s.write + sz ≤ s.cap →
        (Producer.grant_exact s sz).1 = Except.ok ⟨s.write, sz⟩) ∧
      (¬s.write + sz ≤ s.cap → sz < s.read →
        (Producer.grant_exact s sz).1 = Except.ok ⟨0, sz⟩) ∧
      (¬s.write + sz ≤ s.cap → ¬sz < s.read →
        (Producer.grant_exact s sz).1 = Except.error Error.InsufficientSize)) := by
  simp only [Producer.grant_exact, if_neg (show ¬s.wip = true by simp [h])]
  constructor
  · intro h1
    rw [if_pos h1]
    exact ⟨fun h2 => by rw [if_pos h2], fun h2 => by rw [if_neg h2]⟩
  · intro h1
    rw [if_neg h1]
    refine ⟨fun h2 => by rw [if_pos h2], fun h2 h3 => ?_, fun h2 h3 => ?_⟩
    · rw [if_neg h2, if_pos h3]
    · rw [if_neg h2, if_neg h3]

/-- Witness for C4: on a fresh capacity-6 queue, `grant_exact(4)` is placed at
`write = 0`. -/
theorem c4_grant_exact_placement_witness :
    (mkState 6 (fun _ => 0)).wip = false ∧
    ¬(mkState 6 (fun _ => 0)).write < (mkState 6 (fun _ => 0)).read ∧
    (mkState 6 (fun _ => 0)).write + 4 ≤ (mkState 6 (fun _ => 0)).cap ∧
    (Producer.grant_exact (mkState 6 (fun _ => 0)) 4).1 =
      Except.ok ⟨(mkState 6 (fun _ => 0)).write, 4⟩ :=
  ⟨rfl, by decide, by decide,
    ((c4_grant_exact_placement (mkState 6 (fun _ => 0)) 4 rfl).2 (by decide)).1 (by decide)⟩

/-- C7: commit and release arguments saturate at the grant length: for any state,
committing `k` bytes of a write grant with `len < k` is the same operation as
committing exactly `len`, and likewise for `GrantR::release` and
`SplitGrantR::release` (with the combined length). -/
theorem c7_commit_release_saturate (s : BBState) (k : ℕ) :
    (∀ g : GrantW, g.len < k →
      GrantW.commit_inner g k s = GrantW.commit_inner g g.len s) ∧
    (∀ g : GrantR, g.len < k →
      GrantR.release g k s = GrantR.release g g.len s) ∧
    (∀ g : SplitGrantR, g.combined_len < k →
      SplitGrantR.release g k s = SplitGrantR.release g g.combined_len s) := by
  refine ⟨fun g hg => ?_, fun g hg => ?_, fun g hg => ?_⟩
  · simp only [GrantW.commit_inner]
    rw [Nat.min_eq_left hg.le, Nat.min_self]
  · simp only [GrantR.release]
    rw [Nat.min_eq_left hg.le, Nat.min_self]
  · simp only [SplitGrantR.release]
    rw [Nat.min_eq_left hg.le, Nat.min_self]

/-- Witness for C7: committing 5 on a 2-byte grant equals committing 2. -/
theorem c7_commit_release_saturate_witness :
    (⟨0, 2⟩ : GrantW).len < 5 ∧
    GrantW.commit_inner ⟨0, 2⟩ 5 (mkState 4 (fun _ => 0)) =
      GrantW.commit_inner ⟨0, 2⟩ (⟨0, 2⟩ : GrantW).len (mkState 4 (fun _ => 0)) :=
  ⟨by decide, (c7_commit_release_saturate (mkState 4 (fun _ => 0)) 5).1 ⟨0, 2⟩ (by decide)⟩

/-- C8 (evaluation at the failing input): `try_split` on a capacity-2 queue whose
backing bytes are all 5 leaves byte 1 untouched: the code executes
`write_bytes(0u8, 1)`, zeroing only the first byte, while the claim (and the
function's own doc comment) require the whole region to be zeroed. -/
theorem c8_try_split_zeroes_first_byte_only :
    (BBQueue.try_split (newState 2 (fun _ => 5))).toOption.map
      (fun u => (u.buf 0, u.buf 1, u.cap)) = some (0, 5, 2) := by
  decide

/-- C9 (evaluation at the failing input): on a capacity-10 queue, write and commit
10 bytes, read and release 6, then write and commit 5 more (the queue inverts);
a `split_read` now returns both segments and releasing 9 bytes through the
`SplitGrantR` completes (read becomes 5, the released bytes are both segments)
but the `write_waker` wake counter stays at 1: `SplitGrantR::release_inner`
never calls `write_waker.wake()`, contradicting the claim and the field's own
documentation. -/
theorem c9_split_release_does_not_wake :
    ((exec (mkState 10 (fun _ => 0))
        [Op.write [1, 2, 3, 4, 5, 6, 7, 8, 9, 10] 10, Op.readRel 6,
         Op.write [11, 12, 13, 14, 15] 5]).bind
      (fun u => (stepOp u.1 (Op.splitReadRel 9)).map
        (fun v => (u.1.wwakes, v.2.2.wwakes, v.2.2.read, v.2.1)))) =
      some (1, 1, 5, [7, 8, 9, 10, 11, 12, 13, 14, 15]) := by
  decide

/-- C10 (evaluation at the failing input): on a capacity-6 queue, after two
3-byte write/commit cycles the quiescent state has `write = 6`, `last = 3`;
`grant_exact(0)` then succeeds, but `commit(0)` on the zero-length grant stores
`0` into `last` (the `new_write > last` branch stores the grant length `0`
instead of leaving the cursors unchanged), so the zero-commit is not a no-op. -/
theorem c10_zero_commit_clobbers_last :
    ((exec (mkState 6 (fun _ => 0)) [Op.write [1, 2, 3] 3, Op.write [4, 5, 6] 3]).map
        (fun u => u.1.last),
      (exec (mkState 6 (fun _ => 0))
        [Op.write [1, 2, 3] 3, Op.write [4, 5, 6] 3, Op.write [] 0]).map
        (fun u => u.1.last)) = (some 3, some 0) := by
  decide

/-- C5 (amended): whenever `grant_exact`, `grant_max_remaining`, `read` or
`split_read` returns an error, the capacity, buffer, `write`, `last`, `reserve`
and both in-progress flags hold exactly the values they held before the call
(in particular the just-claimed in-progress flag has been released); `read` is
also unchanged, except that a failing `read`/`split_read` may first perform the
inversion rollover, storing 0 into `read`, when `read = last` and
`write < read` held at entry. -/
theorem c5_failed_call_frame (s : BBState) (sz : ℕ) :
    (∀ e s2, Producer.grant_exact s sz = (Except.error e, s2) → s2 = s) ∧
    (∀ e s2, Producer.grant_max_remaining s sz = (Except.error e, s2) → s2 = s) ∧
    (∀ e s2, Consumer.read s = (Except.error e, s2) →
      s2.cap = s.cap ∧ s2.buf = s.buf ∧ s2.write = s.write ∧ s2.last = s.last ∧
      s2.reserve = s.reserve ∧ s2.rip = s.rip ∧ s2.wip = s.wip ∧
      (s2.read = s.read ∨ (s.read = s.last ∧ s.write < s.read ∧ s2.read = 0))) ∧
    (∀ e s2, Consumer.split_read s = (Except.error e, s2) →
      s2.cap = s.cap ∧ s2.buf = s.buf ∧ s2.write = s.write ∧ s2.last = s.last ∧
      s2.reserve = s.reserve ∧ s2.rip = s.rip ∧ s2.wip = s.wip ∧
      (s2.read = s.read ∨ (s.read = s.last ∧ s.write < s.read ∧ s2.read = 0))) := by
  refine ⟨?_, ?_, ?_, ?_⟩
  · intro e s2 h
    simp only [Producer.grant_exact] at h
    split_ifs at h <;> injection h with h1 h2 <;>
      first
      | exact h2.symm
      | exact absurd h1 (by simp)
  · intro e s2 h
    simp only [Producer.grant_max_remaining] at h
    split_ifs at h <;> injection h with h1 h2 <;>
      first
      | exact h2.symm
      | exact absurd h1 (by simp)
  · intro e s2 h
    simp only [Consumer.read] at h
    by_cases hrip : s.rip = true
    · rw [if_pos hrip] at h
      injection h with h1 h2
      subst h2
      exact ⟨rfl, rfl, rfl, rfl, rfl, rfl, rfl, Or.inl rfl⟩
    · rw [if_neg hrip] at h
      by_cases hroll : s.read = s.last ∧ s.write < s.read
      · rw [if_pos hroll, if_neg (show ¬s.write < 0 by omega)] at h
        simp only [Nat.sub_zero] at h
        by_cases hw : s.write = 0
        · rw [if_pos hw] at h
          injection h with h1 h2
          subst h2
          exact ⟨rfl, rfl, rfl, rfl, rfl, rfl, rfl, Or.inr ⟨hroll.1, hroll.2, rfl⟩⟩
        · rw [if_neg hw] at h
          injection h with h1 h2
          exact absurd h1 (by simp)
      · rw [if_neg hroll] at h
        by_cases hsz : (if s.write < s.read then s.last else s.write) - s.read = 0
        · rw [if_pos hsz] at h
          injection h with h1 h2
          subst h2
          exact ⟨rfl, rfl, rfl, rfl, rfl, rfl, rfl, Or.inl rfl⟩
        · rw [if_neg hsz] at h
          injection h with h1 h2
          exact absurd h1 (by simp)
  · intro e s2 h
    simp only [Consumer.split_read] at h
    by_cases hrip : s.rip = true
    · rw [if_pos hrip] at h
      injection h with h1 h2
      subst h2
      exact ⟨rfl, rfl, rfl, rfl, rfl, rfl, rfl, Or.inl rfl⟩
    · rw [if_neg hrip] at h
      by_cases hroll : s.read = s.last ∧ s.write < s.read
      · rw [if_pos hroll, if_neg (show ¬s.write < 0 by omega)] at h
        simp only [Nat.sub_zero] at h
        by_cases hw : s.write = 0
        · rw [if_pos hw] at h
          injection h with h1 h2
          subst h2
          exact ⟨rfl, rfl, rfl, rfl, rfl, rfl, rfl, Or.inr ⟨hroll.1, hroll.2, rfl⟩⟩
        · rw [if_neg hw] at h
          injection h with h1 h2
          exact absurd h1 (by simp)
      · rw [if_neg hroll] at h
        by_cases hsz : (if s.write < s.read then s.last - s.read else s.write - s.read) = 0
        · rw [if_pos hsz] at h
          injection h with h1 h2
          subst h2
          exact ⟨rfl, rfl, rfl, rfl, rfl, rfl, rfl, Or.inl rfl⟩
        · rw [if_neg hsz] at h
          injection h with h1 h2
          exact absurd h1 (by simp)

/-- Witness for C5: on a capacity-0 queue, `grant_exact(1)` fails with
`InsufficientSize` and the state is exactly the pre-call state. -/
theorem c5_failed_call_frame_witness :
    Producer.grant_exact (mkState 0 (fun _ => 0)) 1 =
      (Except.error Error.InsufficientSize, mkState 0 (fun _ => 0)) ∧
    (Producer.grant_exact (mkState 0 (fun _ => 0)) 1).2 = mkState 0 (fun _ => 0) := by
  constructor
  · rfl
  · exact (c5_failed_call_frame (mkState 0 (fun _ => 0)) 1).1 Error.InsufficientSize _ rfl

/-- C5 counterexample: the claim as stated is false: the state reached on a
capacity-6 queue by write/commit 4, read/release 4, then a wrapping
`grant_exact(3)` with `commit(0)` has `write = 0`, `read = last = 4`; calling
`read()` on it fails with `InsufficientSize` but changes the `read` cursor from
4 to 0 (the inversion rollover is stored before the size check). -/
theorem c5_read_error_moves_read :
    ((exec (mkState 6 (fun _ => 0))
        [Op.write [1, 2, 3, 4] 4, Op.readRel 4, Op.write [9, 9, 9] 0]).map
      (fun u => (u.1.read, u.1.write, u.1.last, (Consumer.read u.1).2.read,
        match (Consumer.read u.1).1 with
        | Except.error Error.InsufficientSize => true
        | _ => false))) = some (4, 0, 4, 0, true) := by
  decide

/-- C6: `split_read` in a stably inverted state (`write < read < last`, no read
grant outstanding) returns the primary segment `[read, last)` and the secondary
segment `[0, write)`; releasing `used ≤ primary length` adds `used` to `read`,
while releasing `used > primary length` (up to the combined length) sets
`read := used - primary length`; and an inverted `split_read` fails only when
the primary segment is empty. -/
theorem c6_split_read_inverted (s : BBState) (h0 : s.rip = false) (h1 : s.write < s.read)
    (h2 : s.read < s.last) :
    Consumer.split_read s =
      (Except.ok ⟨s.read, s.last - s.read, s.write⟩, { s with rip := true }) ∧
    (∀ used, used ≤ s.last - s.read →
      (SplitGrantR.release ⟨s.read, s.last - s.read, s.write⟩ used
          { s with rip := true }).read = s.read + used) ∧
    (∀ used, s.last - s.read < used → used ≤ (s.last - s.read) + s.write →
      (SplitGrantR.release ⟨s.read, s.last - s.read, s.write⟩ used
          { s with rip := true }).read = used - (s.last - s.read)) ∧
    (∀ t : BBState, t.rip = false → t.write < t.read →
      ∀ e s2, Consumer.split_read t = (Except.error e, s2) → t.last ≤ t.read) := by
  refine ⟨?_, ?_, ?_, ?_⟩
  · simp only [Consumer.split_read, if_neg (show ¬s.rip = true by simp [h0]),
      if_neg (show ¬(s.read = s.last ∧ s.write < s.read) by omega), if_pos h1]
    rw [if_neg (by omega : ¬s.last - s.read = 0)]
  · intro used hu
    simp only [SplitGrantR.release, SplitGrantR.combined_len]
    rw [split_release_inner_state _ _ _ rfl]
    dsimp only
    rw [Nat.min_eq_right (by omega : used ≤ s.last - s.read + s.write), if_pos hu]
  · intro used hu1 hu2
    simp only [SplitGrantR.release, SplitGrantR.combined_len]
    rw [split_release_inner_state _ _ _ rfl]
    dsimp only
    rw [Nat.min_eq_right (by omega : used ≤ s.last - s.read + s.write),
      if_neg (by omega : ¬used ≤ s.last - s.read)]
  · intro t ht0 ht1 e s2 h
    simp only [Consumer.split_read] at h
    rw [if_neg (show ¬t.rip = true by simp [ht0])] at h
    by_cases hroll : t.read = t.last ∧ t.write < t.read
    · exact le_of_eq hroll.1.symm
    · rw [if_neg hroll] at h
      by_cases hsz : (if t.write < t.read then t.last - t.read else t.write - t.read) = 0
      · rw [if_pos ht1] at hsz
        omega
      · rw [if_neg hsz] at h
        injection h with h1b h2b
        exact absurd h1b (by simp)

/-- Witness for C6 in the concrete inverted state with capacity 6, `write = 2`,
`read = 4`, `last = 6`: the primary segment is `[4, 6)`, the secondary `[0, 2)`,
and a cross-wrap release of 3 bytes sets `read` to 1. -/
theorem c6_split_read_inverted_witness :
    (Consumer.split_read
      { cap := 6, buf := fun _ => 0, write := 2, read := 4, last := 6, reserve := 2,
        rip := false, wip := false, split := true, rwakes := 0, wwakes := 0 }).1 =
      Except.ok ⟨4, 2, 2⟩ ∧
    (SplitGrantR.release ⟨4, 2, 2⟩ 3
      { cap := 6, buf := fun _ => 0, write := 2, read := 4, last := 6, reserve := 2,
        rip := true, wip := false, split := true, rwakes := 0, wwakes := 0 }).read = 1 := by
  have h := c6_split_read_inverted
    { cap := 6, buf := fun _ => 0, write := 2, read := 4, last := 6, reserve := 2,
      rip := false, wip := false, split := true, rwakes := 0, wwakes := 0 }
    rfl (by decide) (by decide)
  constructor
  · rw [h.1]
    rfl
  · simpa using h.2.2.1 3 (by decide) (by decide)

/-- C3 (amended): after every sequence of grants, commits and releases from a
freshly split queue, every quiescent state satisfies the §3 invariants except
the `last == N` clause of invariant 2 (which the code violates because
`commit_inner` stores the grant length rather than the capacity into `last`):
all four cursors lie in `[0, N]`, uninverted states have `read ≤ write`,
inverted states have `write < read` strictly with `read ≤ last ≤ N`, and
`reserve == write` outside a write grant. -/
theorem c3_invariants_hold_amended (cap : ℕ) (f : ℕ → ℕ) (ops : List Op)
    (t : BBState) (cs rs : List ℕ) (h : exec (mkState cap f) ops = some (t, cs, rs)) :
    (t.write ≤ t.cap ∧ t.read ≤ t.cap ∧ t.last ≤ t.cap ∧ t.reserve ≤ t.cap) ∧
    (¬t.write < t.read → t.read ≤ t.write) ∧
    (t.write < t.read → t.read ≤ t.last ∧ t.last ≤ t.cap) ∧
    t.reserve = t.write := by
  obtain ⟨⟨h1, h2, h3, h4, h5⟩, _, hcap⟩ := exec_spec ops (mkState cap f) (mkState_inv cap f) h
  exact ⟨⟨h1, h2, h3, by omega⟩, fun hx => by omega, fun hx => ⟨h5 hx, h3⟩, h4⟩

/-- Witness for the amended C3 after one write/commit of 2 bytes on a capacity-6
queue. -/
theorem c3_invariants_hold_amended_witness :
    ({ cap := 6, buf := setSlice (fun _ => 0) 0 [1, 2], write := 2, read := 0, last := 2,
       reserve := 2, rip := false, wip := false, split := true, rwakes := 1,
       wwakes := 0 } : BBState).reserve =
      ({ cap := 6, buf := setSlice (fun _ => 0) 0 [1, 2], write := 2, read := 0, last := 2,
         reserve := 2, rip := false, wip := false, split := true, rwakes := 1,
         wwakes := 0 } : BBState).write :=
  (c3_invariants_hold_amended 6 (fun _ => 0) [Op.write [1, 2] 2] _ [1, 2] [] rfl).2.2.2
